import Mathlib

/-!
Verification of the ADT repository's dynamic array (`alist`) against its
specification.

The C library stores `void *` elements and delegates per-element behaviour to a
`datatype` descriptor (duplicate / destroy / print / compare).  We embed the
observable state shallowly:

* an element type `α` stands for the values reachable through the stored
  pointers;
* `datatype α` carries the two operations that influence observable state:
  `dup` (returning `none` models `data_dup` returning `NULL` on allocation
  failure) and `cmp` (the `int`-valued comparator, embedded as `Int`);
* `alist α` holds the live element sequence `data` (slots `0 .. len-1` of the
  C array, in order), the allocated `capacity`, and `type`, a `Nat` standing
  for the identity of the bound descriptor pointer (`datatype_equals` is
  pointer equality in `src/src/datatype.c`).

Allocation success of `malloc`/`realloc` is modelled by a boolean oracle `ok`
passed to the operations that allocate; `dup` failures are part of the
descriptor itself.  Where a function manipulates array slots beyond the live
length (the shift/rollback loops of `alist_insert_all`, and the legacy
`alist_insert` of the top-level `alist.c`), we simulate the physical buffer:
the live elements padded with a junk value `d` up to the capacity, exactly as
the C code sees it.
-/

/-- Descriptor operations that influence observable array state
(`src/src/datatype.c`): `dup` models `data_dup` (`none` = `NULL`),
`cmp` models `data_cmp`. -/
structure datatype (α : Type) where
  dup : α → Option α
  cmp : α → α → Int

/-- Observable state of a `struct alist` (`src/src/alist.c` lines 7-12):
`data` is the live element sequence (`data[0 .. len-1]`), `capacity` the
allocated slot count, `type` the identity of the descriptor pointer. -/
structure alist (α : Type) where
  data : List α
  capacity : Nat
  type : Nat
  deriving DecidableEq, Repr

namespace ADT

variable {α : Type}

/-- `alist_create_size(type, init_cap)` (on successful allocation):
empty list with the requested capacity. -/
def alist_create_size (ty : Nat) (init_cap : Nat) : alist α :=
  ⟨[], init_cap, ty⟩

/-- `alist_size`. -/
def alist_size (al : alist α) : Nat := al.data.length

/-- `alist_reserve(al, n)` (`src/src/alist.c` lines 145-160).  `ok` is the
`realloc` success oracle.  No-op when `n <= capacity`; otherwise grows the
capacity to exactly `n`, or fails leaving the array unchanged. -/
def alist_reserve (ok : Bool) (al : alist α) (n : Nat) : Bool × alist α :=
  if n ≤ al.capacity then (true, al)
  else if ok then (true, ⟨al.data, n, al.type⟩)
  else (false, al)

/-- `alist_reclaim(al)` (`src/src/alist.c` lines 162-175): shrink capacity to
the current length (a `realloc`, which may fail). -/
def alist_reclaim (ok : Bool) (al : alist α) : Bool × alist α :=
  if al.data.length = al.capacity then (true, al)
  else if ok then (true, ⟨al.data, al.data.length, al.type⟩)
  else (false, al)

/-- `alist_set(al, index, item)` (`src/src/alist.c` lines 191-205):
duplicate first; on failure return `false` with the array untouched;
otherwise destroy the old occupant and install the copy. -/
def alist_set (dt : datatype α) (al : alist α) (index : Nat) (item : α) :
    Bool × alist α :=
  match dt.dup item with
  | none => (false, al)
  | some c => (true, ⟨al.data.set index c, al.capacity, al.type⟩)

/-- `alist_append(al, item)` (`src/src/alist.c` lines 218-240): duplicate
first (failure leaves the array untouched), then double the capacity if full
(failure leaves the array untouched), then store at index `len`. -/
def alist_append (ok : Bool) (dt : datatype α) (al : alist α) (item : α) :
    Bool × alist α :=
  match dt.dup item with
  | none => (false, al)
  | some c =>
    if al.data.length = al.capacity then
      if ok then (true, ⟨al.data ++ [c], al.capacity * 2, al.type⟩)
      else (false, al)
    else (true, ⟨al.data ++ [c], al.capacity, al.type⟩)

/-- The loop of `alist_append_all` (`src/src/alist.c` lines 242-253):
append each source element in order, stopping at the first failure. -/
def append_all_loop (ok : Bool) (dt : datatype α) :
    alist α → List α → Bool × alist α
  | al, [] => (true, al)
  | al, x :: xs =>
    match alist_append ok dt al x with
    | (true, al') => append_all_loop ok dt al' xs
    | (false, al') => (false, al')

/-- `alist_append_all(al, src)`. -/
def alist_append_all (ok : Bool) (dt : datatype α) (al src : alist α) :
    Bool × alist α :=
  append_all_loop ok dt al src.data

/-- `alist_insert(al, index, item)` (`src/src/alist.c` lines 255-282):
duplicate first (failure leaves the array untouched), grow if full, then
shift `data[index .. len-1]` one slot right and install the copy at `index`;
on the live sequence this is the splice `take index ++ copy :: drop index`. -/
def alist_insert (ok : Bool) (dt : datatype α) (al : alist α) (index : Nat)
    (item : α) : Bool × alist α :=
  match dt.dup item with
  | none => (false, al)
  | some c =>
    if al.data.length = al.capacity then
      if ok then
        (true, ⟨al.data.take index ++ c :: al.data.drop index,
                al.capacity * 2, al.type⟩)
      else (false, al)
    else (true, ⟨al.data.take index ++ c :: al.data.drop index,
                 al.capacity, al.type⟩)

/-- `alist_pop(al, index)` (`src/src/alist.c` lines 324-334): destroy the
element at `index` and shift the following ones left. -/
def alist_pop (al : alist α) (index : Nat) : alist α :=
  ⟨al.data.take index ++ al.data.drop (index + 1), al.capacity, al.type⟩

/-- `alist_count(al, item)` (`src/src/alist.c` lines 444-455): number of
elements comparing equal to `item`. -/
def alist_count (dt : datatype α) (al : alist α) (item : α) : Nat :=
  al.data.countP (fun x => dt.cmp item x == 0)

/-! ### Physical-buffer loops

`alist_insert_all` (and the legacy `alist_insert` of the top-level `alist.c`)
move array slots beyond the live length, so we simulate the physical buffer:
a `List α` of `capacity` entries, the live elements first, junk `d` after. -/

/-- The backward shift loop of `alist_insert_all` (`src/src/alist.c` lines
301-303): `for (i = len; i-- > index;) data[i + slen] = data[i];`.
Fuel `n+1` processes slot `i = index + n`, so fuel `len - index` runs
`i = len-1, len-2, ..., index` exactly as the C loop does.  (`slen = 1` is
also the shift loop of the legacy `alist_insert`, top-level `alist.c` lines
186-188, reindexed by `i' = i - 1`.) -/
def shift_loop (d : α) (index slen : Nat) : List α → Nat → List α
  | phys, 0 => phys
  | phys, n + 1 =>
    shift_loop d index slen (phys.set (index + n + slen) (phys.getD (index + n) d)) n

/-- The duplication loop of `alist_insert_all` (`src/src/alist.c` lines
305-318), up to its rollback: `data[index + i] = data_dup(src->data[i])`,
returning `false` at the first failed duplication (the "destroy already
duplicated items" rollback loop frees memory but writes no slot, so it is
invisible here; the shifted-region restore is `restore_loop` below). -/
def dup_loop (dt : datatype α) (index : Nat) :
    List α → Nat → List α → Bool × List α
  | [], _, phys => (true, phys)
  | x :: xs, i, phys =>
    match dt.dup x with
    | none => (false, phys)
    | some y => dup_loop dt index xs (i + 1) (phys.set (index + i) y)

/-- The restore loop of the `alist_insert_all` rollback (`src/src/alist.c`
lines 312-315): `for (j = index; j < len; ++j) data[j] = data[j + slen];`,
with fuel `len - index`. -/
def restore_loop (d : α) (slen : Nat) : List α → Nat → Nat → List α
  | phys, _, 0 => phys
  | phys, j, n + 1 =>
    restore_loop d slen (phys.set j (phys.getD (j + slen) d)) (j + 1) n

/-- `alist_insert_all(al, index, src)` (`src/src/alist.c` lines 290-322):
reserve `len + src_len` slots, shift `data[index .. len-1]` up by `src_len`,
duplicate the source elements into the gap; at the first failed duplication
destroy the copies made so far, copy the shifted region back down and return
`false`. -/
def alist_insert_all (ok : Bool) (dt : datatype α) (d : α) (al : alist α)
    (index : Nat) (src : alist α) : Bool × alist α :=
  match alist_reserve ok al (al.data.length + src.data.length) with
  | (false, _) => (false, al)
  | (true, al1) =>
    let len := al.data.length
    let slen := src.data.length
    let phys := al.data ++ List.replicate (al1.capacity - len) d
    let phys1 := shift_loop d index slen phys (len - index)
    match dup_loop dt index src.data 0 phys1 with
    | (true, phys2) => (true, ⟨phys2.take (len + slen), al1.capacity, al.type⟩)
    | (false, phys2) =>
      (false, ⟨(restore_loop d slen phys2 index (len - index)).take len,
               al1.capacity, al.type⟩)

/-- The `alist_insert` of the legacy top-level `alist.c` (lines 171-198):
grow if full, then shift `data[index .. len-1]` one slot right, and only
then duplicate the item — so a failed duplication returns `false` after the
shift has already overwritten the live region. -/
def legacy_alist_insert (ok : Bool) (dt : datatype α) (d : α) (al : alist α)
    (index : Nat) (item : α) : Bool × alist α :=
  if al.data.length = al.capacity ∧ ok = false then (false, al)
  else
    let cap2 := if al.data.length = al.capacity then al.capacity * 2 else al.capacity
    let len := al.data.length
    let phys := al.data ++ List.replicate (cap2 - len) d
    let phys1 := shift_loop d index 1 phys (len - index)
    match dt.dup item with
    | none => (false, ⟨phys1.take len, cap2, al.type⟩)
    | some c => (true, ⟨(phys1.set index c).take (len + 1), cap2, al.type⟩)

/-! ### Removal, duplication, equality, search, sort -/

/-- The loop of `alist_remove_all` (`src/src/alist.c` lines 369-373):
`for (i = al->len; i-- > 0;) if (!data_cmp(item, data[i])) alist_pop(al, i);`
— fuel `i + 1` visits index `i`, scanning back to front. -/
def remove_all_loop (dt : datatype α) (d : α) (item : α) :
    alist α → Nat → alist α
  | al, 0 => al
  | al, i + 1 =>
    remove_all_loop dt d item
      (if dt.cmp item (al.data.getD i d) = 0 then alist_pop al i else al) i

/-- `alist_remove_all(al, item)` (`src/src/alist.c` lines 364-374). -/
def alist_remove_all (dt : datatype α) (d : α) (al : alist α) (item : α) :
    alist α :=
  remove_all_loop dt d item al al.data.length

/-- The duplication loop of `alist_dup` (`src/src/alist.c` lines 80-88):
duplicate each element in order; the whole loop yields `none` as soon as one
`data_dup` returns `NULL` (the partial copy is destroyed). -/
def data_dup_list (dt : datatype α) : List α → Option (List α)
  | [] => some []
  | x :: xs =>
    match dt.dup x with
    | none => none
    | some y =>
      match data_dup_list dt xs with
      | none => none
      | some ys => some (y :: ys)

/-- `alist_dup(al)` (`src/src/alist.c` lines 66-94), on successful `malloc`:
duplicate every element in order; copy `len` and `capacity` unchanged; share
the `type` pointer. -/
def alist_dup (dt : datatype α) (al : alist α) : Option (alist α) :=
  match data_dup_list dt al.data with
  | none => none
  | some l => some ⟨l, al.capacity, al.type⟩

/-- `datatype_equals(a, b)` (`src/src/datatype.c` lines 110-114): pointer
identity of the descriptors. -/
def datatype_equals (a b : Nat) : Bool := a == b

/-- `alist_equals(a, b)` (`src/src/alist.c` lines 114-128): equal lengths,
identical descriptor, and pairwise `data_cmp == 0`. -/
def alist_equals (dt : datatype α) (a b : alist α) : Bool :=
  if a.data.length ≠ b.data.length ∨ datatype_equals a.type b.type = false
  then false
  else (List.zip a.data b.data).all (fun p => dt.cmp p.1 p.2 == 0)

/-- Outcome of the `alist_bsearch` loop: a found index, the
`ALIST_INDEX_NOT_FOUND` return, an out-of-bounds read of `data[mid]`
(undefined behaviour in C), or fuel exhaustion (unreachable with ample
fuel). -/
inductive bsearch_result where
  | found (i : Nat)
  | not_found
  | oob_read (mid : Nat)
  | no_fuel
  deriving DecidableEq, Repr

/-- `size_t` arithmetic is modulo `2^64`. -/
def size_wrap : Nat := 2 ^ 64

/-- The `alist_bsearch` loop (`src/src/alist.c` lines 472-485) with the
`size_t` arithmetic explicit: `mid = (low + high) / 2` and `high = mid - 1`
are computed modulo `2^64` (so `high` wraps to `SIZE_MAX` when `mid = 0`),
and a read of `data[mid]` outside the array is reported as `oob_read`. -/
def bsearch_loop (dt : datatype α) (item : α) (data : List α) :
    Nat → Nat → Nat → bsearch_result
  | _, _, 0 => .no_fuel
  | low, high, fuel + 1 =>
    if low ≤ high then
      match data[(low + high) % size_wrap / 2]? with
      | none => .oob_read ((low + high) % size_wrap / 2)
      | some e =>
        if dt.cmp e item = 0 then .found ((low + high) % size_wrap / 2)
        else if dt.cmp e item < 0 then
          bsearch_loop dt item data
            (((low + high) % size_wrap / 2 + 1) % size_wrap) high fuel
        else
          bsearch_loop dt item data low
            (((low + high) % size_wrap / 2 + (size_wrap - 1)) % size_wrap) fuel
    else .not_found

/-- `alist_bsearch(al, item)` (`src/src/alist.c` lines 464-487).  Fuel 130
is ample: each unwrapped iteration halves `high - low`. -/
def alist_bsearch (dt : datatype α) (al : alist α) (item : α) :
    bsearch_result :=
  if al.data.length = 0 then .not_found
  else bsearch_loop dt item al.data 0 (al.data.length - 1) 130

/-- `alist_swap(al, i, j)` (`src/src/alist.c` lines 207-216), on the data
list. -/
def swap_data (d : α) (l : List α) (i j : Nat) : List α :=
  (l.set i (l.getD j d)).set j (l.getD i d)

/-- The partition scan of `qsort_range` (`src/src/alist.c` lines 595-603):
`pos = last; for (i = last; i > first; --i) if (cmp(data[i], pivot) > 0) { swap(i, pos); --pos; }`
— fuel `n + 1` visits index `first + n + 1`, so fuel `last - first` runs
`i = last, last - 1, ..., first + 1` exactly as the C loop. -/
def qsort_scan (dt : datatype α) (d : α) (pivot : α) (first : Nat) :
    Nat → List α → Nat → List α × Nat
  | 0, data, pos => (data, pos)
  | n + 1, data, pos =>
    if 0 < dt.cmp (data.getD (first + n + 1) d) pivot then
      qsort_scan dt d pivot first n
        (swap_data d data (first + n + 1) pos) (pos - 1)
    else
      qsort_scan dt d pivot first n data pos

/-- `qsort_range(al, first, last)` (`src/src/alist.c` lines 588-611):
partition around `data[first]`, swap the pivot into place, recurse on both
sides (guarding the left recursion against `pos = 0` underflow).  The
explicit fuel only bounds the recursion depth: every recursive call shrinks
`last - first`, so any fuel above the initial width reaches the base cases
(`alist_qsort` passes the array length). -/
def qsort_range (dt : datatype α) (d : α) :
    Nat → List α → Nat → Nat → List α
  | 0, data, _, _ => data
  | fuel + 1, data, first, last =>
    if last ≤ first then data
    else
      let p := qsort_scan dt d (data.getD first d) first (last - first)
        data last
      let data1 := swap_data d p.1 first p.2
      let data2 := if 0 < p.2 then qsort_range dt d fuel data1 first (p.2 - 1)
        else data1
      qsort_range dt d fuel data2 (p.2 + 1) last

/-- `alist_qsort(al)` (`src/src/alist.c` lines 457-462). -/
def alist_qsort (dt : datatype α) (d : α) (al : alist α) : alist α :=
  if 0 < al.data.length then
    ⟨qsort_range dt d al.data.length al.data 0 (al.data.length - 1),
     al.capacity, al.type⟩
  else al

/-! ### Concrete descriptors for witnesses and counterexamples -/

/-- The built-in `int` descriptor (`src/src/datatype.c`): `dup_int` succeeds
whenever allocation does, and `cmp_int(a, b)` is `(*a > *b) - (*a < *b)`. -/
def int_type : datatype Int :=
  ⟨fun n => some n,
   fun a b => (if a > b then 1 else 0) - (if a < b then 1 else 0)⟩

/-- The `int` descriptor under an allocation-failure injection: `dup`
returns `NULL` exactly on the value `bad`. -/
def int_type_dup_fails (bad : Int) : datatype Int :=
  ⟨fun n => if n = bad then none else some n,
   fun a b => (if a > b then 1 else 0) - (if a < b then 1 else 0)⟩

/-! ### Helper lemmas on `List.getD` and `List.set` -/

theorem getD_set_self {l : List α} {i : Nat} {a d : α} (h : i < l.length) :
    (l.set i a).getD i d = a := by
  simp [List.getD_eq_getElem?_getD, List.getElem?_set, h]

theorem getD_set_ne {l : List α} {i j : Nat} {a d : α} (h : i ≠ j) :
    (l.set i a).getD j d = l.getD j d := by
  simp [List.getD_eq_getElem?_getD, List.getElem?_set, h]

theorem getD_append_left {l l' : List α} {n : Nat} {d : α} (h : n < l.length) :
    (l ++ l').getD n d = l.getD n d :=
  List.getD_append l l' d n h

theorem getD_of_length_le {l : List α} {n : Nat} {d : α} (h : l.length ≤ n) :
    l.getD n d = d := by
  simp [List.getD_eq_getElem?_getD, List.getElem?_eq_none h]

theorem eq_of_getD {l₁ l₂ : List α} (d : α) (hlen : l₁.length = l₂.length)
    (h : ∀ k, k < l₁.length → l₁.getD k d = l₂.getD k d) : l₁ = l₂ := by
  apply List.ext_getElem?
  intro n
  by_cases hn : n < l₁.length
  · have h₁ := List.getD_eq_getElem l₁ d hn
    have h₂ := List.getD_eq_getElem l₂ d (hlen ▸ hn)
    have := h n hn
    rw [h₁, h₂] at this
    rw [List.getElem?_eq_getElem hn, List.getElem?_eq_getElem (hlen ▸ hn), this]
  · rw [List.getElem?_eq_none (by omega), List.getElem?_eq_none (by omega)]

/-! ### Behaviour of the physical-buffer loops -/

theorem shift_loop_length (d : α) (index slen : Nat) :
    ∀ (n : Nat) (phys : List α),
      (shift_loop d index slen phys n).length = phys.length := by
  intro n
  induction n with
  | zero => intro phys; rfl
  | succ n ih => intro phys; rw [shift_loop, ih, List.length_set]

/-- After the shift loop, slots outside `[index + slen, index + n + slen)`
are unchanged, and slot `index + j + slen` (for `j < n`) holds what slot
`index + j` held before. -/
theorem shift_loop_getD (d : α) (index slen : Nat) :
    ∀ (n : Nat) (phys : List α), index + n + slen ≤ phys.length →
      (∀ k, k < index + slen ∨ index + n + slen ≤ k →
        (shift_loop d index slen phys n).getD k d = phys.getD k d) ∧
      (∀ j, j < n →
        (shift_loop d index slen phys n).getD (index + j + slen) d =
          phys.getD (index + j) d) := by
  intro n
  induction n with
  | zero =>
    intro phys _
    exact ⟨fun k _ => rfl, fun j hj => absurd hj (Nat.not_lt_zero j)⟩
  | succ n ih =>
    intro phys hlen
    rw [shift_loop]
    have hlen' : index + n + slen ≤
        (phys.set (index + n + slen) (phys.getD (index + n) d)).length := by
      rw [List.length_set]; omega
    obtain ⟨ihframe, ihval⟩ := ih _ hlen'
    constructor
    · intro k hk
      rw [ihframe k (by omega), getD_set_ne (by omega)]
    · intro j hj
      rcases Nat.lt_succ_iff_lt_or_eq.mp hj with hj' | rfl
      · rw [ihval j hj', getD_set_ne (by omega)]
      · rw [ihframe (index + j + slen) (by omega),
          getD_set_self (by omega)]

theorem dup_loop_length (dt : datatype α) (index : Nat) :
    ∀ (xs : List α) (i : Nat) (phys : List α),
      ((dup_loop dt index xs i phys).2).length = phys.length := by
  intro xs
  induction xs with
  | nil => intro i phys; rfl
  | cons x xs ih =>
    intro i phys
    rw [dup_loop]
    cases dt.dup x with
    | none => rfl
    | some y => rw [ih, List.length_set]

/-- The duplication loop writes only slots `[index + i, index + i + xs.length)`. -/
theorem dup_loop_frame (dt : datatype α) (index : Nat) (d : α) :
    ∀ (xs : List α) (i : Nat) (phys : List α) (k : Nat),
      k < index + i ∨ index + i + xs.length ≤ k →
      ((dup_loop dt index xs i phys).2).getD k d = phys.getD k d := by
  intro xs
  induction xs with
  | nil => intro i phys k _; rfl
  | cons x xs ih =>
    intro i phys k hk
    simp only [List.length_cons] at hk
    rw [dup_loop]
    cases dt.dup x with
    | none => rfl
    | some y =>
      simp only
      rw [ih (i + 1) _ k (by omega), getD_set_ne (by omega)]

theorem restore_loop_length (d : α) (slen : Nat) :
    ∀ (n : Nat) (phys : List α) (j : Nat),
      (restore_loop d slen phys j n).length = phys.length := by
  intro n
  induction n with
  | zero => intro phys j; rfl
  | succ n ih => intro phys j; rw [restore_loop, ih, List.length_set]

/-- After the restore loop, slot `j + m` (for `m < n`) holds what slot
`j + m + slen` held before, and slots outside `[j, j + n)` are unchanged. -/
theorem restore_loop_getD (d : α) (slen : Nat) :
    ∀ (n : Nat) (phys : List α) (j : Nat), j + n + slen ≤ phys.length →
      (∀ m, m < n →
        (restore_loop d slen phys j n).getD (j + m) d =
          phys.getD (j + m + slen) d) ∧
      (∀ k, k < j ∨ j + n ≤ k →
        (restore_loop d slen phys j n).getD k d = phys.getD k d) := by
  intro n
  induction n with
  | zero =>
    intro phys j _
    exact ⟨fun m hm => absurd hm (Nat.not_lt_zero m), fun k _ => rfl⟩
  | succ n ih =>
    intro phys j hlen
    rw [restore_loop]
    have hlen' : (j + 1) + n + slen ≤
        (phys.set j (phys.getD (j + slen) d)).length := by
      rw [List.length_set]; omega
    obtain ⟨ihval, ihframe⟩ := ih _ (j + 1) hlen'
    constructor
    · intro m hm
      cases m with
      | zero =>
        show (restore_loop d slen (phys.set j (phys.getD (j + slen) d))
            (j + 1) n).getD j d = phys.getD (j + slen) d
        rw [ihframe j (by omega), getD_set_self (by omega)]
      | succ m =>
        have e₁ : j + (m + 1) = (j + 1) + m := by omega
        have e₂ : (j + 1) + m + slen = j + (m + 1) + slen := by omega
        rw [e₁, ihval m (by omega), e₂, getD_set_ne (by omega)]
    · intro k hk
      rw [ihframe k (by omega), getD_set_ne (by omega)]

theorem getD_take {l : List α} {n k : Nat} {d : α} (h : k < n) :
    (l.take n).getD k d = l.getD k d := by
  simp [List.getD_eq_getElem?_getD, List.getElem?_take, h]

/-- Core of the `alist_insert_all` rollback: when the duplication loop fails,
the restore loop hands back exactly the original live elements. -/
theorem insert_all_restore (dt : datatype α) (d : α) (data src : List α)
    (index cap1 : Nat) (hidx : index ≤ data.length)
    (hlen : data.length + src.length ≤ cap1) (phys2 : List α)
    (hdup : dup_loop dt index src 0
      (shift_loop d index src.length
        (data ++ List.replicate (cap1 - data.length) d)
        (data.length - index)) = (false, phys2)) :
    (restore_loop d src.length phys2 index (data.length - index)).take
      data.length = data := by
  set len := data.length with hlendef
  set slen := src.length with hslendef
  set phys := data ++ List.replicate (cap1 - len) d with hphysdef
  set n := len - index with hndef
  have hplen : phys.length = cap1 := by
    rw [hphysdef, List.length_append, List.length_replicate]; omega
  set phys1 := shift_loop d index slen phys n with hp1def
  have hp1len : phys1.length = cap1 := by
    rw [hp1def, shift_loop_length, hplen]
  have hp2 : phys2 = (dup_loop dt index src 0 phys1).2 := by rw [hdup]
  have hp2len : phys2.length = cap1 := by
    rw [hp2, dup_loop_length, hp1len]
  obtain ⟨Sframe, Sval⟩ := shift_loop_getD d index slen n phys (by omega)
  have Dframe : ∀ k, k < index ∨ index + slen ≤ k →
      phys2.getD k d = phys1.getD k d := by
    intro k hk
    rw [hp2]
    exact dup_loop_frame dt index d src 0 phys1 k (by omega)
  obtain ⟨Rval, Rframe⟩ := restore_loop_getD d slen n phys2 index (by omega)
  apply eq_of_getD d
  · rw [List.length_take, restore_loop_length, hp2len]; omega
  · intro k hk
    rw [List.length_take, restore_loop_length, hp2len] at hk
    have hk' : k < len := by omega
    rw [getD_take hk']
    rcases Nat.lt_or_ge k index with hki | hki
    · rw [Rframe k (Or.inl hki), Dframe k (Or.inl hki),
        Sframe k (Or.inl (by omega)), hphysdef, getD_append_left (by omega)]
    · have e₁ : k = index + (k - index) := by omega
      rw [e₁, Rval (k - index) (by omega),
        Dframe (index + (k - index) + slen) (Or.inr (by omega)),
        Sval (k - index) (by omega), hphysdef, getD_append_left (by omega)]

/-- C1: if `alist_insert_all` fails inside the duplication loop (the
allocation oracle is `true`, so `alist_reserve` succeeded and a `data_dup`
returned `NULL`), then on its `false` return the array holds exactly the same
element sequence as before the call, with an at-most-larger capacity. -/
theorem alist_insert_all_rollback (dt : datatype α) (d : α) (al src : alist α)
    (index : Nat) (al₂ : alist α)
    (hidx : index ≤ al.data.length)
    (hfail : alist_insert_all true dt d al index src = (false, al₂)) :
    al₂.data = al.data ∧ al.capacity ≤ al₂.capacity := by
  by_cases hr : al.data.length + src.data.length ≤ al.capacity
  · simp only [alist_insert_all, alist_reserve, if_pos hr] at hfail
    rcases hd : dup_loop dt index src.data 0
        (shift_loop d index src.data.length
          (al.data ++ List.replicate (al.capacity - al.data.length) d)
          (al.data.length - index)) with ⟨b, phys2⟩
    rw [hd] at hfail
    cases b
    · injection hfail with h1 h2
      rw [← h2]
      exact ⟨insert_all_restore dt d al.data src.data index al.capacity
        hidx hr phys2 hd, Nat.le_refl _⟩
    · exact absurd hfail (by simp)
  · simp only [alist_insert_all, alist_reserve, if_neg hr, if_pos trivial] at hfail
    rcases hd : dup_loop dt index src.data 0
        (shift_loop d index src.data.length
          (al.data ++
            List.replicate (al.data.length + src.data.length - al.data.length) d)
          (al.data.length - index)) with ⟨b, phys2⟩
    rw [hd] at hfail
    cases b
    · injection hfail with h1 h2
      rw [← h2]
      refine ⟨insert_all_restore dt d al.data src.data index
        (al.data.length + src.data.length) hidx (Nat.le_refl _) phys2 hd, ?_⟩
      show al.capacity ≤ al.data.length + src.data.length
      omega
    · exact absurd hfail (by simp)

/-- Witness for C1: inserting `[4, 7]` at index 1 of `[1, 2, 3]` with the
duplication of `7` (the second source element, `i = 1 > 0`) failing: the call
returns `false`, the elements are exactly the original ones, and only the
capacity grew (3 to 5). -/
theorem alist_insert_all_rollback_witness :
    (1 ≤ ([1, 2, 3] : List Int).length ∧
      alist_insert_all true (int_type_dup_fails 7) 0
        (⟨[1, 2, 3], 3, 0⟩ : alist Int) 1 ⟨[4, 7], 5, 1⟩ =
        (false, ⟨[1, 2, 3], 5, 0⟩)) ∧
    ((⟨[1, 2, 3], 5, 0⟩ : alist Int).data =
        (⟨[1, 2, 3], 3, 0⟩ : alist Int).data ∧
      (⟨[1, 2, 3], 3, 0⟩ : alist Int).capacity ≤
        (⟨[1, 2, 3], 5, 0⟩ : alist Int).capacity) :=
  ⟨⟨by decide, by decide⟩,
   alist_insert_all_rollback (int_type_dup_fails 7) 0 ⟨[1, 2, 3], 3, 0⟩
     ⟨[4, 7], 5, 1⟩ 1 ⟨[1, 2, 3], 5, 0⟩ (by decide) (by decide)⟩

/-- C2: the legacy top-level `alist.c` `alist_insert` shifts the live region
right before attempting the duplication, so when `data_dup` fails it returns
`false` with the visible sequence corrupted (`[10, 20]` becomes `[10, 10]`),
while the `src/src/alist.c` versions of `insert`, `set` and `append`
duplicate first and leave the array exactly as it was. -/
theorem legacy_insert_dup_failure_corrupts :
    legacy_alist_insert true (int_type_dup_fails 7) 0
        (⟨[10, 20], 2, 0⟩ : alist Int) 0 7 = (false, ⟨[10, 10], 4, 0⟩) ∧
    alist_insert true (int_type_dup_fails 7)
        (⟨[10, 20], 2, 0⟩ : alist Int) 0 7 = (false, ⟨[10, 20], 2, 0⟩) ∧
    alist_set (int_type_dup_fails 7)
        (⟨[10, 20], 2, 0⟩ : alist Int) 0 7 = (false, ⟨[10, 20], 2, 0⟩) ∧
    alist_append true (int_type_dup_fails 7)
        (⟨[10, 20], 2, 0⟩ : alist Int) 7 = (false, ⟨[10, 20], 2, 0⟩) := by
  decide

/-- C6: `alist_reclaim` on an empty array shrinks the capacity to 0; the
next `alist_append` then doubles the capacity to `0 * 2 = 0` and still
stores the element (in C this is an out-of-bounds heap write), leaving
`len = 1 > capacity = 0` — the length/capacity invariant is broken. -/
theorem reclaim_empty_append_breaks_invariant :
    (alist_reclaim true (alist_create_size 0 1 : alist Int)).2.capacity = 0 ∧
    (alist_append true int_type
        (alist_reclaim true (alist_create_size 0 1 : alist Int)).2 5).1 =
      true ∧
    (alist_append true int_type
        (alist_reclaim true (alist_create_size 0 1 : alist Int)).2
        5).2.data.length = 1 ∧
    (alist_append true int_type
        (alist_reclaim true (alist_create_size 0 1 : alist Int)).2
        5).2.capacity = 0 := by
  decide

/-- C8: `alist_reserve` leaves the element sequence unchanged and never
shrinks the capacity; a successful call with `n` above the capacity leaves
capacity at least `n`; a call with `n` at most the capacity succeeds and
changes nothing. -/
theorem alist_reserve_spec (ok : Bool) (al : alist α) (n : Nat) :
    (alist_reserve ok al n).2.data = al.data ∧
    al.capacity ≤ (alist_reserve ok al n).2.capacity ∧
    (al.capacity < n → (alist_reserve ok al n).1 = true →
      n ≤ (alist_reserve ok al n).2.capacity) ∧
    (n ≤ al.capacity → alist_reserve ok al n = (true, al)) := by
  unfold alist_reserve
  by_cases h : n ≤ al.capacity <;> cases ok <;> simp [h] <;> omega

/-- Witness for C8 at `al = ⟨[1], 1, 0⟩`, `n = 5`, `ok = true`. -/
theorem alist_reserve_spec_witness :
    (alist_reserve true (⟨[1], 1, 0⟩ : alist Int) 5).2.data =
        (⟨[1], 1, 0⟩ : alist Int).data ∧
    (⟨[1], 1, 0⟩ : alist Int).capacity ≤
        (alist_reserve true (⟨[1], 1, 0⟩ : alist Int) 5).2.capacity ∧
    ((⟨[1], 1, 0⟩ : alist Int).capacity < 5 →
      (alist_reserve true (⟨[1], 1, 0⟩ : alist Int) 5).1 = true →
      5 ≤ (alist_reserve true (⟨[1], 1, 0⟩ : alist Int) 5).2.capacity) ∧
    (5 ≤ (⟨[1], 1, 0⟩ : alist Int).capacity →
      alist_reserve true (⟨[1], 1, 0⟩ : alist Int) 5 = (true, ⟨[1], 1, 0⟩)) :=
  alist_reserve_spec true ⟨[1], 1, 0⟩ 5

/-- C9: a successful `alist_insert(al, i, v)` followed by `alist_pop(al, i)`
restores the original element sequence (same length, same elements, same
order). -/
theorem insert_then_pop_restores (ok : Bool) (dt : datatype α) (al : alist α)
    (index : Nat) (item : α) (al' : alist α)
    (hidx : index ≤ al.data.length)
    (hins : alist_insert ok dt al index item = (true, al')) :
    (alist_pop al' index).data = al.data := by
  have htake : (al.data.take index).length = index := by
    rw [List.length_take]; omega
  have hpop : ∀ c : α,
      (al.data.take index ++ c :: al.data.drop index).take index ++
        (al.data.take index ++ c :: al.data.drop index).drop (index + 1) =
        al.data := by
    intro c
    have hcons : al.data.take index ++ c :: al.data.drop index =
        (al.data.take index ++ [c]) ++ al.data.drop index := by
      rw [List.append_assoc, List.singleton_append]
    rw [List.take_left' htake, hcons,
      List.drop_left' (by rw [List.length_append, htake]; simp),
      List.take_append_drop]
  unfold alist_insert at hins
  split at hins
  · exact absurd hins (by simp)
  · split at hins
    · split at hins
      · injection hins with h1 h2
        rw [← h2]
        exact hpop _
      · exact absurd hins (by simp)
    · injection hins with h1 h2
      rw [← h2]
      exact hpop _

/-- C4: on the sorted singleton array `[1]`, searching for `0` (an item
comparing less than every element) makes `high = mid - 1` underflow to
`SIZE_MAX` at `mid = 0`; the loop then continues (`low = 0 <= high`) and
reads `data[(0 + SIZE_MAX) / 2] = data[2^63 - 1]`, far out of bounds —
undefined behaviour in C instead of the documented
`ALIST_INDEX_NOT_FOUND`. -/
theorem bsearch_below_minimum_reads_out_of_bounds :
    alist_bsearch int_type ⟨[1], 1, 0⟩ 0 = .oob_read (2 ^ 63 - 1) := by
  decide

/-- Unrolling `alist_remove_all`'s back-to-front scan: with the slots above
the scan cursor already processed, the result filters the slots below it. -/
theorem remove_all_loop_eq (dt : datatype α) (d item : α) :
    ∀ (n : Nat) (l₁ l₂ : List α) (cap ty : Nat), l₁.length = n →
      remove_all_loop dt d item ⟨l₁ ++ l₂, cap, ty⟩ n =
        ⟨l₁.filter (fun x => !(dt.cmp item x == 0)) ++ l₂, cap, ty⟩ := by
  intro n
  induction n with
  | zero =>
    intro l₁ l₂ cap ty hlen
    rw [List.eq_nil_of_length_eq_zero hlen]
    rfl
  | succ n ih =>
    intro l₁ l₂ cap ty hlen
    have hne : l₁ ≠ [] := by
      intro h; rw [h] at hlen; exact absurd hlen (by simp)
    obtain ⟨l₀, x, rfl⟩ : ∃ l₀ x, l₁ = l₀ ++ [x] :=
      ⟨l₁.dropLast, l₁.getLast hne, (List.dropLast_append_getLast hne).symm⟩
    have hl₀ : l₀.length = n := by
      rw [List.length_append] at hlen; simp at hlen; omega
    have hgetD : ((l₀ ++ [x]) ++ l₂).getD n d = x := by
      rw [List.append_assoc, List.getD_append_right _ _ _ _ (by omega), hl₀]
      simp
    rw [remove_all_loop]
    simp only [hgetD]
    by_cases hcmp : dt.cmp item x = 0
    · rw [if_pos hcmp]
      have hpop : alist_pop (⟨(l₀ ++ [x]) ++ l₂, cap, ty⟩ : alist α) n =
          ⟨l₀ ++ l₂, cap, ty⟩ := by
        have h1 : ((l₀ ++ [x]) ++ l₂).take n = l₀ := by
          rw [List.append_assoc, List.singleton_append, List.take_left' hl₀]
        have h2 : ((l₀ ++ [x]) ++ l₂).drop (n + 1) = l₂ :=
          List.drop_left' (by simp [hl₀])
        show (⟨((l₀ ++ [x]) ++ l₂).take n ++ ((l₀ ++ [x]) ++ l₂).drop (n + 1),
          cap, ty⟩ : alist α) = _
        rw [h1, h2]
      rw [hpop, ih l₀ l₂ cap ty hl₀, List.filter_append]
      have : List.filter (fun x => !(dt.cmp item x == 0)) [x] = [] := by
        simp [hcmp]
      rw [this, List.append_nil]
    · rw [if_neg hcmp]
      have heq : (l₀ ++ [x]) ++ l₂ = l₀ ++ (x :: l₂) := by
        rw [List.append_assoc, List.singleton_append]
      rw [heq, ih l₀ (x :: l₂) cap ty hl₀, List.filter_append]
      have : List.filter (fun x => !(dt.cmp item x == 0)) [x] = [x] := by
        simp [hcmp]
      rw [this, List.append_assoc, List.singleton_append]

/-- C7: `alist_remove_all` removes every element comparing equal to `item`
under the descriptor's compare (the count drops to 0), and the survivors are
exactly the original sequence filtered in order. -/
theorem alist_remove_all_spec (dt : datatype α) (d : α) (al : alist α)
    (item : α) :
    (alist_remove_all dt d al item).data =
      al.data.filter (fun x => !(dt.cmp item x == 0)) ∧
    alist_count dt (alist_remove_all dt d al item) item = 0 := by
  have h : alist_remove_all dt d al item =
      ⟨al.data.filter (fun x => !(dt.cmp item x == 0)), al.capacity,
        al.type⟩ := by
    have h0 := remove_all_loop_eq dt d item al.data.length al.data []
      al.capacity al.type rfl
    rw [List.append_nil, List.append_nil] at h0
    exact h0
  rw [h]
  refine ⟨rfl, ?_⟩
  show List.countP _ _ = 0
  rw [List.countP_filter]
  simp

/-- Unrolling the `alist_append_all` loop: on success every source element
was appended as a duplicate in order; on failure the elements duplicated
before the failing one stay appended — there is no rollback. -/
theorem append_all_loop_characterization (dt : datatype α) :
    ∀ (l : List α) (al : alist α) (b : Bool) (al₂ : alist α),
      append_all_loop true dt al l = (b, al₂) →
      (b = true → ∃ l', data_dup_list dt l = some l' ∧
        al₂.data = al.data ++ l') ∧
      (b = false → ∃ l₁ x l₂x dl, l = l₁ ++ x :: l₂x ∧
        data_dup_list dt l₁ = some dl ∧ dt.dup x = none ∧
        al₂.data = al.data ++ dl) := by
  intro l
  induction l with
  | nil =>
    intro al b al₂ h
    injection h with h1 h2
    constructor
    · intro _
      exact ⟨[], rfl, by rw [← h2, List.append_nil]⟩
    · intro hb
      rw [← h1] at hb
      exact absurd hb (by simp)
  | cons x xs ih =>
    intro al b al₂ h
    rcases hdup : dt.dup x with - | c
    · simp only [append_all_loop, alist_append, hdup] at h
      injection h with h1 h2
      constructor
      · intro hb; rw [← h1] at hb; exact absurd hb (by simp)
      · intro _
        refine ⟨[], x, xs, [], rfl, rfl, hdup, ?_⟩
        rw [← h2, List.append_nil]
    · have happ : ∃ cap2, alist_append true dt al x =
          (true, ⟨al.data ++ [c], cap2, al.type⟩) := by
        by_cases hfull : al.data.length = al.capacity
        · exact ⟨al.capacity * 2, by simp [alist_append, hdup, hfull]⟩
        · exact ⟨al.capacity, by simp [alist_append, hdup, hfull]⟩
      obtain ⟨cap2, happ⟩ := happ
      rw [append_all_loop, happ] at h
      obtain ⟨ih1, ih2⟩ := ih ⟨al.data ++ [c], cap2, al.type⟩ b al₂ h
      constructor
      · intro hb
        obtain ⟨l', hdl, hdata⟩ := ih1 hb
        refine ⟨c :: l', ?_, ?_⟩
        · unfold data_dup_list
          rw [hdup, hdl]
        · rw [hdata]
          show (al.data ++ [c]) ++ l' = al.data ++ c :: l'
          rw [List.append_assoc, List.singleton_append]
      · intro hb
        obtain ⟨l₁, y, l₂x, dl, hsplit, hdl, hy, hdata⟩ := ih2 hb
        refine ⟨x :: l₁, y, l₂x, c :: dl, by rw [hsplit]; rfl, ?_, hy, ?_⟩
        · unfold data_dup_list
          rw [hdup, hdl]
        · rw [hdata]
          show (al.data ++ [c]) ++ dl = al.data ++ (c :: dl)
          rw [List.append_assoc, List.singleton_append]

/-- C3 (amended): with allocation succeeding (failures come from
`data_dup`), `alist_append_all` either appends a duplicate of every source
element in order and returns `true`, or returns `false` leaving the
target's original elements followed by duplicates of the source elements
that preceded the failing one — the already-appended duplicates are *not*
rolled back. -/
theorem alist_append_all_no_rollback (dt : datatype α) (al src : alist α)
    (b : Bool) (al₂ : alist α)
    (h : alist_append_all true dt al src = (b, al₂)) :
    (b = true → ∃ l', data_dup_list dt src.data = some l' ∧
      al₂.data = al.data ++ l') ∧
    (b = false → ∃ l₁ x l₂x dl, src.data = l₁ ++ x :: l₂x ∧
      data_dup_list dt l₁ = some dl ∧ dt.dup x = none ∧
      al₂.data = al.data ++ dl) :=
  append_all_loop_characterization dt src.data al b al₂ h

/-- Witness for C3's amended statement: appending `[5, 7]` to `[9]` with the
duplication of `7` failing returns `false` and leaves `[9, 5]`. -/
theorem alist_append_all_no_rollback_witness :
    alist_append_all true (int_type_dup_fails 7) (⟨[9], 1, 0⟩ : alist Int)
        ⟨[5, 7], 2, 0⟩ = (false, ⟨[9, 5], 2, 0⟩) ∧
    ((false = true → ∃ l', data_dup_list (int_type_dup_fails 7) [5, 7] =
        some l' ∧ (⟨[9, 5], 2, 0⟩ : alist Int).data = [9] ++ l') ∧
      (false = false → ∃ l₁ x l₂x dl, ([5, 7] : List Int) = l₁ ++ x :: l₂x ∧
        data_dup_list (int_type_dup_fails 7) l₁ = some dl ∧
        (int_type_dup_fails 7).dup x = none ∧
        (⟨[9, 5], 2, 0⟩ : alist Int).data = [9] ++ dl)) :=
  ⟨by decide,
   alist_append_all_no_rollback (int_type_dup_fails 7) ⟨[9], 1, 0⟩
     ⟨[5, 7], 2, 0⟩ false ⟨[9, 5], 2, 0⟩ (by decide)⟩

/-- Counterexample to C3 as stated: `alist_append_all` of `[5, 7]` onto the
empty array, with the duplication of `7` failing, returns `false` but the
array now holds one element — not its pre-call (empty) sequence, so there is
no roll back to the pre-call state. -/
theorem append_all_failure_keeps_appended_items :
    (alist_append_all true (int_type_dup_fails 7) (⟨[], 1, 0⟩ : alist Int)
        ⟨[5, 7], 2, 0⟩).1 = false ∧
    (alist_append_all true (int_type_dup_fails 7) (⟨[], 1, 0⟩ : alist Int)
        ⟨[5, 7], 2, 0⟩).2.data ≠ [] := by
  decide

/-- `data_dup_list` preserves length and duplicates index-wise. -/
theorem data_dup_list_spec (dt : datatype α) (d : α) :
    ∀ (l l' : List α), data_dup_list dt l = some l' →
      l'.length = l.length ∧
      ∀ k, k < l.length →
        dt.dup (l.getD k d) = some (l'.getD k d) := by
  intro l
  induction l with
  | nil =>
    intro l' h
    injection h with h
    rw [← h]
    exact ⟨rfl, fun k hk => absurd hk (by simp)⟩
  | cons x xs ih =>
    intro l' h
    rw [data_dup_list] at h
    rcases hdup : dt.dup x with - | y <;> rw [hdup] at h
    · exact absurd h (by simp)
    · rcases hdl : data_dup_list dt xs with - | ys <;> rw [hdl] at h
      · exact absurd h (by simp)
      · injection h with h
        rw [← h]
        obtain ⟨ihlen, ihgetD⟩ := ih ys hdl
        refine ⟨by simp [ihlen], ?_⟩
        intro k hk
        cases k with
        | zero => exact hdup
        | succ k => exact ihgetD k (by simp at hk; omega)

/-- Pairwise `cmp`-equality of a list with its duplicate, given a
compare-compatible `dup`. -/
theorem data_dup_list_zip_all (dt : datatype α)
    (hcompat : ∀ x y, dt.dup x = some y → dt.cmp x y = 0) :
    ∀ (l l' : List α), data_dup_list dt l = some l' →
      (List.zip l l').all (fun p => dt.cmp p.1 p.2 == 0) = true := by
  intro l
  induction l with
  | nil =>
    intro l' h
    injection h with h
    rw [← h]
    rfl
  | cons x xs ih =>
    intro l' h
    rw [data_dup_list] at h
    rcases hdup : dt.dup x with - | y <;> rw [hdup] at h
    · exact absurd h (by simp)
    · rcases hdl : data_dup_list dt xs with - | ys <;> rw [hdl] at h
      · exact absurd h (by simp)
      · injection h with h
        rw [← h]
        simp only [List.zip_cons_cons, List.all_cons, Bool.and_eq_true,
          beq_iff_eq]
        exact ⟨hcompat x y hdup, ih ys hdl⟩

/-- C10: a successful `alist_dup` yields an array with the same descriptor
pointer, the same length, the same (untrimmed) capacity, whose element at
each index is the descriptor duplicate of the original element; and when
`dup` produces `cmp`-equal copies (true of every built-in descriptor),
`alist_equals(al, alist_dup(al))` holds. -/
theorem alist_dup_spec (dt : datatype α) (d : α) (al al' : alist α)
    (h : alist_dup dt al = some al') :
    al'.type = al.type ∧ al'.capacity = al.capacity ∧
    al'.data.length = al.data.length ∧
    (∀ k, k < al.data.length →
      dt.dup (al.data.getD k d) = some (al'.data.getD k d)) ∧
    ((∀ x y, dt.dup x = some y → dt.cmp x y = 0) →
      alist_equals dt al al' = true) := by
  unfold alist_dup at h
  rcases hdl : data_dup_list dt al.data with - | l <;> rw [hdl] at h
  · exact absurd h (by simp)
  · injection h with h
    rw [← h]
    obtain ⟨hlen, hgetD⟩ := data_dup_list_spec dt d al.data l hdl
    refine ⟨rfl, rfl, hlen, hgetD, ?_⟩
    intro hcompat
    unfold alist_equals
    rw [if_neg]
    · exact data_dup_list_zip_all dt hcompat al.data l hdl
    · push_neg
      exact ⟨by rw [hlen], by simp [datatype_equals]⟩

/-- Witness for C10 at `al = ⟨[1, 2], 5, 3⟩` with the `int` descriptor. -/
theorem alist_dup_spec_witness :
    alist_dup int_type (⟨[1, 2], 5, 3⟩ : alist Int) =
        some ⟨[1, 2], 5, 3⟩ ∧
    ((⟨[1, 2], 5, 3⟩ : alist Int).type =
        (⟨[1, 2], 5, 3⟩ : alist Int).type ∧
      (⟨[1, 2], 5, 3⟩ : alist Int).capacity =
        (⟨[1, 2], 5, 3⟩ : alist Int).capacity ∧
      (⟨[1, 2], 5, 3⟩ : alist Int).data.length =
        (⟨[1, 2], 5, 3⟩ : alist Int).data.length ∧
      (∀ k, k < (⟨[1, 2], 5, 3⟩ : alist Int).data.length →
        int_type.dup ((⟨[1, 2], 5, 3⟩ : alist Int).data.getD k 0) =
          some ((⟨[1, 2], 5, 3⟩ : alist Int).data.getD k 0)) ∧
      ((∀ x y, int_type.dup x = some y → int_type.cmp x y = 0) →
        alist_equals int_type ⟨[1, 2], 5, 3⟩ ⟨[1, 2], 5, 3⟩ = true)) :=
  ⟨by decide,
   alist_dup_spec int_type 0 ⟨[1, 2], 5, 3⟩ ⟨[1, 2], 5, 3⟩ (by decide)⟩

/-! ### Properties of `swap_data` (`alist_swap`) -/

theorem length_swap_data (d : α) (l : List α) (i j : Nat) :
    (swap_data d l i j).length = l.length := by
  simp [swap_data]

theorem swap_data_getD_left (d : α) (l : List α) {i j : Nat}
    (hi : i < l.length) (hj : j < l.length) :
    (swap_data d l i j).getD j d = l.getD i d := by
  unfold swap_data
  exact getD_set_self (by rw [List.length_set]; exact hj)

theorem swap_data_getD_right (d : α) (l : List α) {i j : Nat} (hij : i ≠ j)
    (hi : i < l.length) :
    (swap_data d l i j).getD i d = l.getD j d := by
  unfold swap_data
  rw [getD_set_ne (fun h => hij h.symm)]
  exact getD_set_self hi

theorem swap_data_getD_other (d : α) (l : List α) {i j k : Nat}
    (h1 : k ≠ i) (h2 : k ≠ j) :
    (swap_data d l i j).getD k d = l.getD k d := by
  unfold swap_data
  rw [getD_set_ne (fun h => h2 h.symm), getD_set_ne (fun h => h1 h.symm)]

theorem set_getD_self (d : α) (l : List α) (i : Nat) :
    l.set i (l.getD i d) = l := by
  apply eq_of_getD d (List.length_set l i _)
  intro k hk
  rw [List.length_set] at hk
  by_cases h : i = k
  · subst h
    exact getD_set_self hk
  · exact getD_set_ne h

/-- Pulling an element of `xs` to the front while writing `x` into its slot
is a permutation of pushing `x` onto `xs`. -/
theorem getD_cons_set_perm (d : α) :
    ∀ (xs : List α) (m : Nat) (x : α), m < xs.length →
      (xs.getD m d :: xs.set m x).Perm (x :: xs) := by
  intro xs
  induction xs with
  | nil => intro m x h; exact absurd h (by simp)
  | cons y ys ih =>
    intro m x h
    cases m with
    | zero => exact List.Perm.swap x y ys
    | succ m =>
      have h1 : (ys.getD m d :: y :: ys.set m x).Perm
          (y :: ys.getD m d :: ys.set m x) :=
        List.Perm.swap y (ys.getD m d) (ys.set m x)
      have h2 : (y :: ys.getD m d :: ys.set m x).Perm (y :: x :: ys) :=
        (ih m x (by simp at h; omega)).cons y
      have h3 : (y :: x :: ys).Perm (x :: y :: ys) := List.Perm.swap x y ys
      simp only [List.getD_cons_succ, List.set_cons_succ]
      exact (h1.trans h2).trans h3

theorem swap_data_perm (d : α) :
    ∀ (l : List α) (i j : Nat), i < l.length → j < l.length →
      (swap_data d l i j).Perm l := by
  intro l
  induction l with
  | nil => intro i j hi _; exact absurd hi (by simp)
  | cons x xs ih =>
    intro i j hi hj
    cases i with
    | zero =>
      cases j with
      | zero =>
        unfold swap_data
        rw [List.set_set, set_getD_self]
      | succ m =>
        unfold swap_data
        simp only [List.getD_cons_succ, List.getD_cons_zero,
          List.set_cons_zero, List.set_cons_succ]
        exact getD_cons_set_perm d xs m x (by simp at hj; omega)
    | succ k =>
      cases j with
      | zero =>
        have hcomm : swap_data d (x :: xs) (k + 1) 0 =
            swap_data d (x :: xs) 0 (k + 1) := by
          unfold swap_data
          exact List.set_comm _ _ _ (by omega)
        rw [hcomm]
        unfold swap_data
        simp only [List.getD_cons_succ, List.getD_cons_zero,
          List.set_cons_zero, List.set_cons_succ]
        exact getD_cons_set_perm d xs k x (by simp at hi; omega)
      | succ m =>
        unfold swap_data
        simp only [List.getD_cons_succ, List.set_cons_succ]
        exact (ih k m (by simp at hi; omega) (by simp at hj; omega)).cons x

theorem swap_data_pred (P : α → Prop) (d : α) (l : List α)
    {i j lo hi : Nat} (hil : lo ≤ i) (hih : i ≤ hi) (hjl : lo ≤ j)
    (hjh : j ≤ hi) (hi' : i < l.length) (hj' : j < l.length)
    (h : ∀ k, lo ≤ k → k ≤ hi → P (l.getD k d)) :
    ∀ k, lo ≤ k → k ≤ hi → P ((swap_data d l i j).getD k d) := by
  intro k hk1 hk2
  by_cases hkj : k = j
  · rw [hkj, swap_data_getD_left d l hi' hj']
    exact h i hil hih
  · by_cases hki : k = i
    · have hij : i ≠ j := fun he => hkj (hki.trans he)
      rw [hki, swap_data_getD_right d l hij hi']
      exact h j hjl hjh
    · rw [swap_data_getD_other d l hki hkj]
      exact h k hk1 hk2

/-! ### Properties of the partition scan -/

theorem qsort_scan_length (dt : datatype α) (d pivot : α) (first : Nat) :
    ∀ (n : Nat) (data : List α) (pos : Nat),
      ((qsort_scan dt d pivot first n data pos).1).length = data.length := by
  intro n
  induction n with
  | zero => intro data pos; rfl
  | succ n ih =>
    intro data pos
    rw [qsort_scan]
    split
    · rw [ih, length_swap_data]
    · exact ih data pos

theorem qsort_scan_snd_le (dt : datatype α) (d pivot : α) (first : Nat) :
    ∀ (n : Nat) (data : List α) (pos : Nat),
      (qsort_scan dt d pivot first n data pos).2 ≤ pos := by
  intro n
  induction n with
  | zero => intro data pos; exact Nat.le_refl pos
  | succ n ih =>
    intro data pos
    rw [qsort_scan]
    split
    · exact Nat.le_trans (ih _ (pos - 1)) (by omega)
    · exact ih data pos

theorem qsort_scan_snd_ge (dt : datatype α) (d pivot : α) (first : Nat) :
    ∀ (n : Nat) (data : List α) (pos : Nat),
      pos - n ≤ (qsort_scan dt d pivot first n data pos).2 := by
  intro n
  induction n with
  | zero => intro data pos; exact Nat.le_refl pos
  | succ n ih =>
    intro data pos
    rw [qsort_scan]
    split
    · exact Nat.le_trans (by omega) (ih _ (pos - 1))
    · exact Nat.le_trans (by omega) (ih data pos)

/-- The scan touches only slots in `(first, pos]`. -/
theorem qsort_scan_frame (dt : datatype α) (d pivot : α) (first : Nat) :
    ∀ (n : Nat) (data : List α) (pos : Nat), first + n ≤ pos →
      ∀ k, k ≤ first ∨ pos < k →
        ((qsort_scan dt d pivot first n data pos).1).getD k d =
          data.getD k d := by
  intro n
  induction n with
  | zero => intro data pos _ k _; rfl
  | succ n ih =>
    intro data pos h k hk
    rw [qsort_scan]
    split
    · rw [ih _ (pos - 1) (by omega) k (by omega),
        swap_data_getD_other d data (by omega) (by omega)]
    · exact ih data pos (by omega) k hk

theorem qsort_scan_perm (dt : datatype α) (d pivot : α) (first : Nat) :
    ∀ (n : Nat) (data : List α) (pos : Nat),
      first + n ≤ pos → pos < data.length →
      ((qsort_scan dt d pivot first n data pos).1).Perm data := by
  intro n
  induction n with
  | zero => intro data pos _ _; exact List.Perm.refl data
  | succ n ih =>
    intro data pos h hpos
    rw [qsort_scan]
    split
    · exact (ih _ (pos - 1) (by omega)
        (by rw [length_swap_data]; omega)).trans
        (swap_data_perm d data (first + n + 1) pos (by omega) hpos)
    · exact ih data pos (by omega) hpos

/-- The scan permutes only within `(first, pos]`, so a pointwise predicate
over an enclosing interval survives it. -/
theorem qsort_scan_pred (dt : datatype α) (d pivot : α) (first : Nat)
    (P : α → Prop) (lo hi : Nat) :
    ∀ (n : Nat) (data : List α) (pos : Nat),
      first + n ≤ pos → lo ≤ first + 1 → pos ≤ hi → pos < data.length →
      (∀ k, lo ≤ k → k ≤ hi → P (data.getD k d)) →
      ∀ k, lo ≤ k → k ≤ hi →
        P (((qsort_scan dt d pivot first n data pos).1).getD k d) := by
  intro n
  induction n with
  | zero => intro data pos _ _ _ _ h k hk1 hk2; exact h k hk1 hk2
  | succ n ih =>
    intro data pos h1 h2 h3 h4 h k hk1 hk2
    rw [qsort_scan]
    split
    · exact ih _ (pos - 1) (by omega) h2 (by omega)
        (by rw [length_swap_data]; omega)
        (swap_data_pred P d data (by omega) (by omega) (by omega) h3
          (by omega) h4 h) k hk1 hk2
    · exact ih data pos (by omega) h2 h3 h4 h k hk1 hk2

/-- The partition invariant: after the scan, slots `(pos', hi]` compare
greater than the pivot and slots `(first, pos']` compare at most the
pivot. -/
theorem qsort_scan_invariant (dt : datatype α) (d pivot : α)
    (first hi : Nat) :
    ∀ (n : Nat) (data : List α) (pos : Nat),
      first + n ≤ pos → pos ≤ hi → hi < data.length →
      (∀ k, pos < k → k ≤ hi → 0 < dt.cmp (data.getD k d) pivot) →
      (∀ k, first + n < k → k ≤ pos → dt.cmp (data.getD k d) pivot ≤ 0) →
      (∀ k, (qsort_scan dt d pivot first n data pos).2 < k → k ≤ hi →
        0 < dt.cmp (((qsort_scan dt d pivot first n data pos).1).getD k d)
          pivot) ∧
      (∀ k, first < k → k ≤ (qsort_scan dt d pivot first n data pos).2 →
        dt.cmp (((qsort_scan dt d pivot first n data pos).1).getD k d)
          pivot ≤ 0) := by
  intro n
  induction n with
  | zero =>
    intro data pos _ _ _ hgt hle
    exact ⟨hgt, fun k hk1 hk2 => hle k (by omega) hk2⟩
  | succ n ih =>
    intro data pos h1 h2 h3 hgt hle
    rw [qsort_scan]
    by_cases hc : 0 < dt.cmp (data.getD (first + n + 1) d) pivot
    · rw [if_pos hc]
      refine ih (swap_data d data (first + n + 1) pos) (pos - 1) (by omega)
        (by omega) (by rw [length_swap_data]; omega) ?_ ?_
      · intro k hk1 hk2
        by_cases hkpos : k = pos
        · rw [hkpos, swap_data_getD_left d data (by omega) (by omega)]
          exact hc
        · rw [swap_data_getD_other d data (by omega) (by omega)]
          exact hgt k (by omega) hk2
      · intro k hk1 hk2
        by_cases hki : k = first + n + 1
        · by_cases hip : first + n + 1 = pos
          · exact absurd hk2 (by omega)
          · rw [hki, swap_data_getD_right d data hip (by omega)]
            exact hle pos (by omega) (Nat.le_refl pos)
        · rw [swap_data_getD_other d data (by omega) (by omega)]
          exact hle k (by omega) (by omega)
    · rw [if_neg hc]
      refine ih data pos (by omega) h2 h3 hgt ?_
      intro k hk1 hk2
      by_cases hki : k = first + n + 1
      · rw [hki]
        omega
      · exact hle k (by omega) hk2

/-! ### Properties of `qsort_range` -/

theorem qsort_range_length (dt : datatype α) (d : α) :
    ∀ (fuel : Nat) (data : List α) (first last : Nat),
      (qsort_range dt d fuel data first last).length = data.length := by
  intro fuel
  induction fuel with
  | zero => intro data first last; rfl
  | succ fuel ih =>
    intro data first last
    simp only [qsort_range]
    by_cases h : last ≤ first
    · rw [if_pos h]
    · rw [if_neg h, ih]
      by_cases h2 : 0 < (qsort_scan dt d (data.getD first d) first
          (last - first) data last).2
      · rw [if_pos h2, ih, length_swap_data, qsort_scan_length]
      · rw [if_neg h2, length_swap_data, qsort_scan_length]

/-- `qsort_range` touches only slots in `[first, last]`. -/
theorem qsort_range_frame (dt : datatype α) (d : α) :
    ∀ (fuel : Nat) (data : List α) (first last : Nat), last < data.length →
      ∀ k, k < first ∨ last < k →
        (qsort_range dt d fuel data first last).getD k d =
          data.getD k d := by
  intro fuel
  induction fuel with
  | zero => intro data first last _ k _; rfl
  | succ fuel ih =>
    intro data first last hlast k hk
    simp only [qsort_range]
    by_cases h : last ≤ first
    · rw [if_pos h]
    · rw [if_neg h]
      have hle2 := qsort_scan_snd_le dt d (data.getD first d) first
        (last - first) data last
      have hge2 := qsort_scan_snd_ge dt d (data.getD first d) first
        (last - first) data last
      have hs1len := qsort_scan_length dt d (data.getD first d) first
        (last - first) data last
      by_cases h2 : 0 < (qsort_scan dt d (data.getD first d) first
          (last - first) data last).2
      · rw [if_pos h2]
        rw [ih _ _ last
          (by rw [qsort_range_length, length_swap_data, hs1len]; omega)
          k (by omega)]
        rw [ih _ first _ (by rw [length_swap_data, hs1len]; omega)
          k (by omega)]
        rw [swap_data_getD_other d _ (by omega) (by omega)]
        rw [qsort_scan_frame dt d (data.getD first d) first (last - first)
          data last (by omega) k (by omega)]
      · rw [if_neg h2]
        rw [ih _ _ last (by rw [length_swap_data, hs1len]; omega)
          k (by omega)]
        rw [swap_data_getD_other d _ (by omega) (by omega)]
        rw [qsort_scan_frame dt d (data.getD first d) first (last - first)
          data last (by omega) k (by omega)]

theorem qsort_range_perm (dt : datatype α) (d : α) :
    ∀ (fuel : Nat) (data : List α) (first last : Nat), last < data.length →
      (qsort_range dt d fuel data first last).Perm data := by
  intro fuel
  induction fuel with
  | zero => intro data first last _; exact List.Perm.refl data
  | succ fuel ih =>
    intro data first last hlast
    simp only [qsort_range]
    by_cases h : last ≤ first
    · rw [if_pos h]
    · rw [if_neg h]
      have hle2 := qsort_scan_snd_le dt d (data.getD first d) first
        (last - first) data last
      have hs1len := qsort_scan_length dt d (data.getD first d) first
        (last - first) data last
      have hp1 : ((qsort_scan dt d (data.getD first d) first (last - first)
          data last).1).Perm data :=
        qsort_scan_perm dt d (data.getD first d) first (last - first) data
          last (by omega) hlast
      have hd1 : (swap_data d (qsort_scan dt d (data.getD first d) first
          (last - first) data last).1 first (qsort_scan dt d
          (data.getD first d) first (last - first) data last).2).Perm data :=
        (swap_data_perm d _ first _ (by omega) (by omega)).trans hp1
      by_cases h2 : 0 < (qsort_scan dt d (data.getD first d) first
          (last - first) data last).2
      · rw [if_pos h2]
        refine (ih _ _ last ?_).trans ((ih _ first _ ?_).trans hd1)
        · rw [qsort_range_length, length_swap_data, hs1len]; omega
        · rw [length_swap_data, hs1len]; omega
      · rw [if_neg h2]
        refine (ih _ _ last ?_).trans hd1
        rw [length_swap_data, hs1len]; omega

/-- A pointwise predicate holding on `[first, last]` survives
`qsort_range`. -/
theorem qsort_range_pred (dt : datatype α) (d : α) (P : α → Prop) :
    ∀ (fuel : Nat) (data : List α) (first last : Nat), last < data.length →
      (∀ k, first ≤ k → k ≤ last → P (data.getD k d)) →
      ∀ k, first ≤ k → k ≤ last →
        P ((qsort_range dt d fuel data first last).getD k d) := by
  intro fuel
  induction fuel with
  | zero => intro data first last _ hP k hk1 hk2; exact hP k hk1 hk2
  | succ fuel ih =>
    intro data first last hlast hP k hk1 hk2
    simp only [qsort_range]
    by_cases h : last ≤ first
    · rw [if_pos h]
      exact hP k hk1 hk2
    · rw [if_neg h]
      rcases hsq : qsort_scan dt d (data.getD first d) first (last - first)
          data last with ⟨s1, s2⟩
      have hle2 : s2 ≤ last := by
        have h0 := qsort_scan_snd_le dt d (data.getD first d) first
          (last - first) data last
        rw [hsq] at h0; exact h0
      have hge2 : first ≤ s2 := by
        have h0 := qsort_scan_snd_ge dt d (data.getD first d) first
          (last - first) data last
        rw [hsq] at h0; dsimp only at h0; omega
      have hs1len : s1.length = data.length := by
        have h0 := qsort_scan_length dt d (data.getD first d) first
          (last - first) data last
        rw [hsq] at h0; exact h0
      have hsP : ∀ m, first ≤ m → m ≤ last → P (s1.getD m d) := by
        have h0 := qsort_scan_pred dt d (data.getD first d) first P first
          last (last - first) data last (by omega) (by omega)
          (Nat.le_refl last) hlast hP
        rw [hsq] at h0; exact h0
      have hd1len : (swap_data d s1 first s2).length = data.length := by
        rw [length_swap_data, hs1len]
      have hd1P : ∀ m, first ≤ m → m ≤ last →
          P ((swap_data d s1 first s2).getD m d) :=
        swap_data_pred P d s1 (Nat.le_refl first) (by omega) hge2 hle2
          (by omega) (by omega) hsP
      by_cases h2 : 0 < s2
      · rw [if_pos h2]
        have hd2len : (qsort_range dt d fuel (swap_data d s1 first s2) first
            (s2 - 1)).length = data.length := by
          rw [qsort_range_length, hd1len]
        have hd2P : ∀ m, first ≤ m → m ≤ last →
            P ((qsort_range dt d fuel (swap_data d s1 first s2) first
              (s2 - 1)).getD m d) := by
          intro m hm1 hm2
          by_cases hms : m ≤ s2 - 1
          · exact ih (swap_data d s1 first s2) first (s2 - 1) (by omega)
              (fun j hj1 hj2 => hd1P j hj1 (by omega)) m hm1 hms
          · rw [qsort_range_frame dt d fuel (swap_data d s1 first s2) first
              (s2 - 1) (by omega) m (Or.inr (by omega))]
            exact hd1P m hm1 hm2
        by_cases hks : s2 + 1 ≤ k
        · exact ih (qsort_range dt d fuel (swap_data d s1 first s2) first
            (s2 - 1)) (s2 + 1) last (by omega)
            (fun j hj1 hj2 => hd2P j (by omega) hj2) k hks hk2
        · rw [qsort_range_frame dt d fuel (qsort_range dt d fuel
            (swap_data d s1 first s2) first (s2 - 1)) (s2 + 1) last
            (by omega) k (Or.inl (by omega))]
          exact hd2P k hk1 hk2
      · rw [if_neg h2]
        by_cases hks : s2 + 1 ≤ k
        · exact ih (swap_data d s1 first s2) (s2 + 1) last (by omega)
            (fun j hj1 hj2 => hd1P j (by omega) hj2) k hks hk2
        · rw [qsort_range_frame dt d fuel (swap_data d s1 first s2)
            (s2 + 1) last (by omega) k (Or.inl (by omega))]
          exact hd1P k hk1 hk2

/-- Adjacent-pair sortedness of `qsort_range` on `[first, last]`, for a
comparator whose positive results are asymmetric (`cmp(a, b) > 0` implies
`cmp(b, a) < 0`, as for every total-order comparator such as `cmp_int`). -/
theorem qsort_range_sorted (dt : datatype α) (d : α)
    (hasym : ∀ a b : α, 0 < dt.cmp a b → dt.cmp b a < 0) :
    ∀ (fuel : Nat) (data : List α) (first last : Nat),
      last < data.length → last - first < fuel →
      ∀ k, first ≤ k → k + 1 ≤ last →
        dt.cmp ((qsort_range dt d fuel data first last).getD k d)
          ((qsort_range dt d fuel data first last).getD (k + 1) d) ≤ 0 := by
  intro fuel
  induction fuel with
  | zero => intro data first last _ hf k _ _; exact absurd hf (by omega)
  | succ fuel ih =>
    intro data first last hlast hfuel k hk1 hk2
    simp only [qsort_range]
    by_cases hbase : last ≤ first
    · exact absurd hk2 (by omega)
    · rw [if_neg hbase]
      rcases hsq : qsort_scan dt d (data.getD first d) first (last - first)
          data last with ⟨s1, s2⟩
      have hle2 : s2 ≤ last := by
        have h0 := qsort_scan_snd_le dt d (data.getD first d) first
          (last - first) data last
        rw [hsq] at h0; exact h0
      have hge2 : first ≤ s2 := by
        have h0 := qsort_scan_snd_ge dt d (data.getD first d) first
          (last - first) data last
        rw [hsq] at h0; dsimp only at h0; omega
      have hs1len : s1.length = data.length := by
        have h0 := qsort_scan_length dt d (data.getD first d) first
          (last - first) data last
        rw [hsq] at h0; exact h0
      have hinv := qsort_scan_invariant dt d (data.getD first d) first last
        (last - first) data last (by omega) (Nat.le_refl last) hlast
        (fun j h1 h2 => absurd h1 (by omega))
        (fun j h1 h2 => absurd h1 (by omega))
      rw [hsq] at hinv
      dsimp only at hinv
      obtain ⟨G1, G2⟩ := hinv
      have hfirst : s1.getD first d = data.getD first d := by
        have h0 := qsort_scan_frame dt d (data.getD first d) first
          (last - first) data last (by omega) first
          (Or.inl (Nat.le_refl first))
        rw [hsq] at h0; exact h0
      have hd1len : (swap_data d s1 first s2).length = data.length := by
        rw [length_swap_data, hs1len]
      have A1 : ∀ j, first ≤ j → j < s2 →
          dt.cmp ((swap_data d s1 first s2).getD j d)
            (data.getD first d) ≤ 0 := by
        intro j hj1 hj2
        by_cases hjf : j = first
        · rw [hjf, swap_data_getD_right d s1 (by omega) (by omega)]
          exact G2 s2 (by omega) (Nat.le_refl s2)
        · rw [swap_data_getD_other d s1 hjf (by omega)]
          exact G2 j (by omega) (by omega)
      have A2 : (swap_data d s1 first s2).getD s2 d = data.getD first d := by
        rw [swap_data_getD_left d s1 (by omega) (by omega), hfirst]
      have A3 : ∀ j, s2 < j → j ≤ last →
          0 < dt.cmp ((swap_data d s1 first s2).getD j d)
            (data.getD first d) := by
        intro j hj1 hj2
        rw [swap_data_getD_other d s1 (by omega) (by omega)]
        exact G1 j hj1 hj2
      have final : ∀ data2 : List α, data2.length = data.length →
          (∀ j, first ≤ j → j < s2 →
            dt.cmp (data2.getD j d) (data.getD first d) ≤ 0) →
          data2.getD s2 d = data.getD first d →
          (∀ j, s2 < j → j ≤ last →
            0 < dt.cmp (data2.getD j d) (data.getD first d)) →
          (∀ j, first ≤ j → j + 1 ≤ s2 - 1 →
            dt.cmp (data2.getD j d) (data2.getD (j + 1) d) ≤ 0) →
          dt.cmp ((qsort_range dt d fuel data2 (s2 + 1) last).getD k d)
            ((qsort_range dt d fuel data2 (s2 + 1) last).getD (k + 1) d)
            ≤ 0 := by
        intro data2 hlen2 B1 B2 B3 BS
        have hC0 : ∀ j, j ≤ s2 →
            (qsort_range dt d fuel data2 (s2 + 1) last).getD j d =
              data2.getD j d :=
          fun j hj => qsort_range_frame dt d fuel data2 (s2 + 1) last
            (by omega) j (Or.inl (by omega))
        have hC3 : ∀ j, s2 + 1 ≤ j → j ≤ last →
            0 < dt.cmp ((qsort_range dt d fuel data2 (s2 + 1) last).getD
              j d) (data.getD first d) :=
          fun j hj1 hj2 => qsort_range_pred dt d
            (fun x => 0 < dt.cmp x (data.getD first d)) fuel data2 (s2 + 1)
            last (by omega) (fun m hm1 hm2 => B3 m (by omega) hm2) j hj1 hj2
        have CS : ∀ j, s2 + 1 ≤ j → j + 1 ≤ last →
            dt.cmp ((qsort_range dt d fuel data2 (s2 + 1) last).getD j d)
              ((qsort_range dt d fuel data2 (s2 + 1) last).getD (j + 1) d)
              ≤ 0 :=
          fun j hj1 hj2 => ih data2 (s2 + 1) last (by omega) (by omega)
            j hj1 hj2
        by_cases hcase1 : k + 1 < s2
        · rw [hC0 k (by omega), hC0 (k + 1) (by omega)]
          exact BS k hk1 (by omega)
        · by_cases hcase2 : k + 1 = s2
          · rw [hC0 k (by omega), hC0 (k + 1) (by omega), hcase2, B2]
            exact B1 k hk1 (by omega)
          · by_cases hcase3 : k = s2
            · have hg : (qsort_range dt d fuel data2 (s2 + 1) last).getD
                  k d = data.getD first d := by
                rw [hC0 k (by omega), hcase3]
                exact B2
              rw [hg]
              have h1 := hC3 (k + 1) (by omega) (by omega)
              have h2 := hasym _ _ h1
              omega
            · exact CS k (by omega) hk2
      by_cases h0 : 0 < s2
      · rw [if_pos h0]
        refine final (qsort_range dt d fuel (swap_data d s1 first s2) first
          (s2 - 1)) ?_ ?_ ?_ ?_ ?_
        · rw [qsort_range_length, hd1len]
        · intro j hj1 hj2
          by_cases hjs : j ≤ s2 - 1
          · exact qsort_range_pred dt d
              (fun x => dt.cmp x (data.getD first d) ≤ 0) fuel
              (swap_data d s1 first s2) first (s2 - 1) (by omega)
              (fun m hm1 hm2 => A1 m hm1 (by omega)) j hj1 hjs
          · exact absurd hj2 (by omega)
        · rw [qsort_range_frame dt d fuel (swap_data d s1 first s2) first
            (s2 - 1) (by omega) s2 (Or.inr (by omega))]
          exact A2
        · intro j hj1 hj2
          rw [qsort_range_frame dt d fuel (swap_data d s1 first s2) first
            (s2 - 1) (by omega) j (Or.inr (by omega))]
          exact A3 j hj1 hj2
        · intro j hj1 hj2
          exact ih (swap_data d s1 first s2) first (s2 - 1) (by omega)
            (by omega) j hj1 hj2
      · rw [if_neg h0]
        refine final (swap_data d s1 first s2) hd1len A1 A2 A3 ?_
        intro j hj1 hj2
        exact absurd hj2 (by omega)

/-- C5: after `alist_qsort` the stored elements are a permutation of the
elements held before the call, and every adjacent pair compares at most
zero under the descriptor's compare — for any comparator whose positive
results are asymmetric, which every total-order comparator (such as the
built-in `cmp_int`) is. -/
theorem alist_qsort_sorted_perm (dt : datatype α) (d : α)
    (hasym : ∀ a b : α, 0 < dt.cmp a b → dt.cmp b a < 0)
    (al : alist α) (k : Nat)
    (hk : k + 1 < (alist_qsort dt d al).data.length) :
    ((alist_qsort dt d al).data).Perm al.data ∧
    dt.cmp ((alist_qsort dt d al).data.getD k d)
      ((alist_qsort dt d al).data.getD (k + 1) d) ≤ 0 := by
  unfold alist_qsort at hk ⊢
  by_cases h : 0 < al.data.length
  · rw [if_pos h] at hk ⊢
    dsimp only at hk ⊢
    have hlen := qsort_range_length dt d al.data.length al.data 0
      (al.data.length - 1)
    rw [hlen] at hk
    constructor
    · exact qsort_range_perm dt d al.data.length al.data 0
        (al.data.length - 1) (by omega)
    · exact qsort_range_sorted dt d hasym al.data.length al.data 0
        (al.data.length - 1) (by omega) (by omega) k (by omega) (by omega)
  · rw [if_neg h] at hk
    exact absurd hk (by omega)

/-- The built-in `int` comparator has asymmetric positive results. -/
theorem int_type_asym (a b : Int) (h : 0 < int_type.cmp a b) :
    int_type.cmp b a < 0 := by
  unfold int_type at h ⊢
  dsimp only at h ⊢
  split_ifs at h ⊢ <;> omega

/-- Witness for C5: sorting `[3, 1, 2]` with the `int` descriptor yields a
permutation whose first adjacent pair compares at most zero. -/
theorem alist_qsort_sorted_perm_witness :
    ((∀ a b : Int, 0 < int_type.cmp a b → int_type.cmp b a < 0) ∧
      0 + 1 < (alist_qsort int_type 0
        (⟨[3, 1, 2], 4, 0⟩ : alist Int)).data.length) ∧
    (((alist_qsort int_type 0 (⟨[3, 1, 2], 4, 0⟩ : alist Int)).data).Perm
        [3, 1, 2] ∧
      int_type.cmp
        ((alist_qsort int_type 0
          (⟨[3, 1, 2], 4, 0⟩ : alist Int)).data.getD 0 0)
        ((alist_qsort int_type 0
          (⟨[3, 1, 2], 4, 0⟩ : alist Int)).data.getD (0 + 1) 0) ≤ 0) :=
  ⟨⟨int_type_asym, by decide⟩,
   alist_qsort_sorted_perm int_type 0 int_type_asym ⟨[3, 1, 2], 4, 0⟩ 0
     (by decide)⟩

/-- Witness for C9: inserting `9` at index 1 of `[1, 2]` (capacity 2, so the
insert path doubles it) then popping index 1 gives back `[1, 2]`. -/
theorem insert_then_pop_restores_witness :
    (1 ≤ ([1, 2] : List Int).length ∧
      alist_insert true int_type (⟨[1, 2], 2, 0⟩ : alist Int) 1 9 =
        (true, ⟨[1, 9, 2], 4, 0⟩)) ∧
    (alist_pop (⟨[1, 9, 2], 4, 0⟩ : alist Int) 1).data =
      (⟨[1, 2], 2, 0⟩ : alist Int).data :=
  ⟨⟨by decide, by decide⟩,
   insert_then_pop_restores true int_type ⟨[1, 2], 2, 0⟩ 1 9
     ⟨[1, 9, 2], 4, 0⟩ (by decide) (by decide)⟩

end ADT
